import Mathlib

/-!
Shallow embedding of the query-serving pipeline of the offline RAG chatbot
(`src/chatbot.py`, `src/config.py`, `bot_server.py`).

Python text is modelled as a list of characters (`Str`); the relevant
`str` methods and the specific regular expressions of `_clean_response`
are embedded as explicit executable functions.  The md5 hex digest used
for cache fingerprints is modelled as the identity on the normalized
question text (a deterministic key; hash collisions are not relevant to
any claim).  The generation chain (`chain.invoke`) ends in LangChain's
`StrOutputParser`, so its successful result is always a string; its
behaviour on a given call is modelled by the `GenOutcome` type: it either
returns a raw string, raises an exception (with some detail text), or is
still running when the `future.result` timeout elapses.
-/

/-- Python text modelled as a list of characters. -/
abbrev Str := List Char

/-- Python whitespace characters (as stripped by `str.strip`, split by
`str.split`, and matched by the regex whitespace class). -/
def isSpace (c : Char) : Bool :=
  c = ' ' || c = '\t' || c = '\n' || c = '\r' || c = '\x0b' || c = '\x0c'

/-- Remove leading whitespace (left half of Python `str.strip`). -/
def lstrip : Str → Str
  | [] => []
  | c :: r => if isSpace c then lstrip r else c :: r

/-- Remove trailing whitespace (right half of Python `str.strip`). -/
def rstrip (s : Str) : Str := (lstrip s.reverse).reverse

/-- Python `str.strip()`: trim whitespace from both ends. -/
def strip (s : Str) : Str := rstrip (lstrip s)

/-- Python `str.lower()` (ASCII case folding suffices for all texts involved). -/
def toLowerStr (s : Str) : Str := s.map Char.toLower

/-- Python substring test `needle in hay`. -/
def containsSub (hay needle : Str) : Bool :=
  (List.range (hay.length + 1)).any (fun i => needle.isPrefixOf (hay.drop i))

/-- Python `str.split(sep)` for a single separator character: keeps empty parts. -/
def splitChar (sep : Char) : Str → List Str
  | [] => [[]]
  | c :: r =>
    match splitChar sep r with
    | [] => [[]]
    | h :: t => if c = sep then [] :: h :: t else (c :: h) :: t

/-- Splitting at every character satisfying a predicate, keeping empty parts. -/
def splitPred (p : Char → Bool) : Str → List Str
  | [] => [[]]
  | c :: r =>
    match splitPred p r with
    | [] => [[]]
    | h :: t => if p c then [] :: h :: t else (c :: h) :: t

/-- Python `str.split()` with no argument: split on whitespace, dropping
empty parts. -/
def wsSplit (s : Str) : List Str := (splitPred isSpace s).filter (fun w => w ≠ [])

/-- Python `sep.join(parts)`. -/
def joinSep (sep : Str) : List Str → Str
  | [] => []
  | [x] => x
  | x :: y :: t => x ++ sep ++ joinSep sep (y :: t)

/-- ASCII apostrophe, kept as a named character. -/
def apos : Char := Char.ofNat 39

/-- The fixed sentinel answer used on timeout and by provenance validation
(`chatbot.py` lines 151 and 255). -/
def sentinelAnswer : Str :=
  "I don".data ++ apos :: "t have that information in the provided documents.".data

/-- The fixed generic message returned by `ask_question` when the pipeline
raises any exception (`chatbot.py` line 168). -/
def genericErrorMsg : Str := "I encountered an error processing your request.".data

/-- Answer returned for an empty or whitespace-only question. -/
def invalidQuestionMsg : Str := "⚠️ Please provide a valid question.".data

/-- Answer returned when the chain is not initialized. -/
def notInitializedMsg : Str := "⚠️ Chatbot not initialized.".data

/-!
`_clean_response` scans for the leak patterns
`\n\s*Question:`, `\n\s*Context:`, `\n\s*User:`, `\n\s*Assistant:`,
`\n\s*Rules:`, `\n\s*Answer based` with `re.IGNORECASE`, cutting the text
at each pattern's leftmost match in the listed order.  The matcher below
embeds exactly those patterns: a newline, then any run of whitespace,
then the literal, case-insensitively.
-/

/-- A match of the regex tail (whitespace run followed by the case-insensitive
literal) starts at the current position. -/
def matchAfterWS (lit : Str) : Str → Bool
  | [] => lit.isPrefixOf (toLowerStr [])
  | c :: r => lit.isPrefixOf (toLowerStr (c :: r)) || (isSpace c && matchAfterWS lit r)

/-- A full leak-pattern match begins at this position: a newline, then optional
whitespace, then the literal (case-insensitive). -/
def patMatchAt (lit : Str) : Str → Bool
  | [] => false
  | c :: r => c = '\n' && matchAfterWS lit r

/-- Index of the leftmost pattern match (the `start()` of `re.search`). -/
def firstMatch (lit : Str) : Str → Option Nat
  | [] => none
  | c :: r =>
    if patMatchAt lit (c :: r) then some 0
    else (firstMatch lit r).map (fun n => n + 1)

/-- One iteration of the leak-pattern loop of `_clean_response`: cut at the
match start and strip. -/
def cutPattern (t : Str) (lit : Str) : Str :=
  match firstMatch lit t with
  | some i => strip (t.take i)
  | none => t

/-- The literals of the fixed leak patterns of `_clean_response`, lower-cased. -/
def leakLits : List Str :=
  ["question:".data, "context:".data, "user:".data, "assistant:".data,
   "rules:".data, "answer based".data]

/-- Some leak pattern matches somewhere in the text. -/
def hasLeakMatch (s : Str) : Bool := leakLits.any (fun lit => (firstMatch lit s).isSome)

/-- `_clean_response` from `src/chatbot.py`: strip, cut at each pattern's
first match in the fixed order, and strip again. -/
def clean_response (s : Str) : Str := strip (List.foldl cutPattern (strip s) leakLits)

/-!  `_detect_repetition` from `src/chatbot.py`. -/

/-- The sentence-level repetition check: on responses of more than three
dot-separated sentences whose last three non-empty sentences repeat (or all
start from fewer than three distinct leading tokens), truncate to the first
half of the sentences. -/
def sentenceCheck (r : Str) : Option Str :=
  let sentences := splitChar '.' r
  if sentences.length > 3 then
    let lastThree :=
      (((sentences.drop (sentences.length - 4)).take 3).filter
        (fun s => strip s ≠ [])).map (fun s => toLowerStr (strip s))
    if lastThree.length = 3 then
      if lastThree.getD 0 [] = lastThree.getD 1 [] ∨
         lastThree.getD 1 [] = lastThree.getD 2 [] ∨
         lastThree.all (fun s => ((wsSplit s).take 5).dedup.length < 3) then
        some (joinSep ('.' :: ' ' :: []) (sentences.take (sentences.length / 2)) ++ ['.'])
      else none
    else none
  else none

/-- The phrase-level repetition check: over sliding 5-token windows of the
lower-cased response, if some window's phrase occurs more than twice, cut at
the first window position whose phrase count exceeds two. -/
def phraseCheck (r : Str) : Option Str :=
  let words := wsSplit (toLowerStr r)
  if words.length > 20 then
    let phrases := (List.range (words.length - 5)).map
      (fun i => joinSep [' '] ((words.drop i).take 5))
    if phrases.any (fun p => phrases.count p > 2) then
      match (List.range phrases.length).find?
          (fun i => phrases.count (phrases.getD i []) > 2) with
      | some i =>
        let cut := i * 5 + (wsSplit (phrases.getD i [])).length
        some (joinSep [' '] (words.take cut) ++ ['.'])
      | none => none
    else none
  else none

/-- `_detect_repetition` from `src/chatbot.py`: responses shorter than 100
characters are exempt, then the sentence-level and phrase-level checks run
in sequence, the first that fires deciding the truncated result. -/
def detect_repetition (r : Str) : Str :=
  if r.length < 100 then r
  else
    match sentenceCheck r with
    | some t => t
    | none =>
      match phraseCheck r with
      | some t => t
      | none => r

/-- The fixed hedge-phrase list of `_validate_context_response`. -/
def genericIndicators : List Str :=
  ["as an ai".data,
   "i".data ++ apos :: "m an ai".data,
   "i can help you with".data,
   "here are some general".data,
   "typically,".data,
   "generally speaking".data,
   "in general,".data,
   "commonly,".data,
   "it is widely known".data,
   "based on my training".data,
   "from what i know".data]

/-- `_validate_context_response` from `src/chatbot.py`: the loop over the
indicator list returns the sentinel on the first indicator contained in the
lower-cased response, which is equivalent to testing whether any indicator
occurs. -/
def validate_context_response (r : Str) : Str :=
  if genericIndicators.any (fun ind => containsSub (toLowerStr r) ind) then sentinelAnswer
  else r

/-- The full three-stage sanitization applied to a successful generation
result (`chatbot.py` lines 153-156), in the order the code applies them. -/
def sanitize (raw : Str) : Str :=
  validate_context_response (detect_repetition (clean_response raw))

example : clean_response (" x ".data) = "x".data := by decide
example : hasLeakMatch (" x ".data) = false := by decide
example : clean_response ("ok\n Question: hm".data) = "ok".data := by decide
example : validate_context_response ("As an AI I cannot".data) = sentinelAnswer := by decide
example : sanitize ("a0".data) = "a0".data := by decide

/-!  Context assembly: `_format_docs` from `src/chatbot.py`. -/

/-- The dedup fingerprint of a fragment: its first 200 characters, stripped
(`doc.page_content[:200].strip()`). -/
def fpr (d : Str) : Str := strip (d.take 200)

/-- The dedup loop of `_format_docs`: keep a fragment only when its
fingerprint was not seen before, tracking the set of seen fingerprints. -/
def dedupAux (seen : List Str) : List Str → List Str
  | [] => []
  | d :: rest =>
    if fpr d ∈ seen then dedupAux seen rest
    else d :: dedupAux (fpr d :: seen) rest

/-- The surviving fragments of `_format_docs`, in order (`unique_docs`). -/
def dedupDocs (docs : List Str) : List Str := dedupAux [] docs

/-- `MAX_CONTEXT_LENGTH` from `_format_docs`. -/
def MAX_CONTEXT_LENGTH : Nat := 12000

/-- Placeholder returned by `_format_docs` for an empty fragment list. -/
def noDocsMsg : Str := "No relevant documents found.".data

/-- The truncation marker appended by `_format_docs`. -/
def truncationMarker : Str := '\n' :: "[... truncated ...]".data

/-- `_format_docs` from `src/chatbot.py`: dedup, collapse whitespace, mark
and join the fragments, and truncate at the length cap. -/
def format_docs (docs : List Str) : Str :=
  if docs = [] then noDocsMsg
  else
    let formatted := joinSep ('\n' :: '\n' :: [])
      ((dedupDocs docs).map (fun d => '-' :: ' ' :: joinSep [' '] (wsSplit (strip d))))
    if formatted.length > MAX_CONTEXT_LENGTH then formatted.take MAX_CONTEXT_LENGTH ++ truncationMarker
    else formatted

/-!  The query cache and `ask_question`. -/

/-- The query cache: a Python `OrderedDict` modelled as an association list
in insertion order, oldest first. -/
abbrev Cache := List (Str × Str)

/-- Dictionary lookup (`_query_cache[query_hash]` after a key test). -/
def cacheGet : Cache → Str → Option Str
  | [], _ => none
  | (k, v) :: r, q => if k = q then some v else cacheGet r q

/-- `OrderedDict` assignment: an existing key keeps its position and gets the
new value; a new key is appended at the most-recent end. -/
def cachePut : Cache → Str → Str → Cache
  | [], k, v => [(k, v)]
  | (k0, v0) :: r, k, v =>
    if k0 = k then (k0, v) :: r else (k0, v0) :: cachePut r k v

/-- `CACHE_SIZE` from `src/config.py`. -/
def CACHE_SIZE : Nat := 100

/-- `ENABLE_QUERY_CACHE` from `src/config.py`. -/
def ENABLE_QUERY_CACHE : Bool := true

/-- The eviction step of `ask_question`: `popitem` with `last` False removes
the first (oldest-inserted) entry whenever the size exceeds the capacity. -/
def evictOldest (c : Cache) : Cache := if c.length > CACHE_SIZE then c.tail else c

/-- Behaviour of the submitted `chain.invoke(query)` call for one invocation:
it may still be running when the timeout elapses, raise an exception
carrying some detail text, or return a raw generated string. -/
inductive GenOutcome
  | timeout
  | err (detail : Str)
  | ok (raw : Str)

/-- Observable result of one `ask_question` call: the returned answer, the
query-cache state afterwards, and whether the generation chain was invoked. -/
structure AskResult where
  answer : Str
  cache : Cache
  ranGen : Bool

/-- The cache fingerprint of a question: md5 of the trimmed, lower-cased
text, modelled as the normalized text itself. -/
def fpOf (q : Str) : Str := toLowerStr (strip q)

/-- `ask_question` from `src/chatbot.py`, for one call, given the behaviour
of the submitted chain invocation.  The `except Exception` clause absorbs
every exception the collaborators raise, so the embedding is a total
function; the `concurrent.futures.TimeoutError` branch returns the sentinel
before any cache write. -/
def askQuestion (chainOk : Bool) (c : Cache) (q : Str) (o : GenOutcome) : AskResult :=
  if chainOk = false then ⟨notInitializedMsg, c, false⟩
  else if strip q = [] then ⟨invalidQuestionMsg, c, false⟩
  else
    match (if ENABLE_QUERY_CACHE then cacheGet c (fpOf q) else none) with
    | some v => ⟨v, c, false⟩
    | none =>
      match o with
      | .timeout => ⟨sentinelAnswer, c, true⟩
      | .err _ => ⟨genericErrorMsg, c, true⟩
      | .ok raw =>
        let result := sanitize raw
        if ENABLE_QUERY_CACHE = true ∧ result ≠ [] then
          ⟨result, evictOldest (cachePut c (fpOf q) result), true⟩
        else ⟨result, c, true⟩

/-- One operation against the shared cache: an `ask_question` call (with the
chain initialized) or `clear_query_cache`. -/
inductive Op
  | ask (q : Str) (o : GenOutcome)
  | clear

/-- Effect of one operation on the cache state. -/
def stepOp (c : Cache) : Op → Cache
  | .ask q o => (askQuestion true c q o).cache
  | .clear => []

/-- Running a sequence of operations from a cache state. -/
def runOps (c : Cache) : List Op → Cache
  | [] => c
  | op :: rest => runOps (stepOp c op) rest

/-!
Timing model of the generation block of `ask_question` (lines 145-151),
derived from the semantics of `concurrent.futures`:

* `future.result` with a timeout returns (or raises `TimeoutError`) after
  `min d t` where `d` is the duration of the submitted call and `t` the
  timeout;
* leaving the `with ThreadPoolExecutor(...)` block — including via the
  `return` in the `TimeoutError` handler — runs `Executor.shutdown` with
  `wait` True, which joins the worker thread; the submitted call is never
  cancelled once running, so the worker finishes only at time `d`.

All durations are in milliseconds. -/

/-- Time at which `future.result(timeout)` hands back control. -/
def futureResultTime (d t : Nat) : Nat := min d t

/-- Whether the call timed out (`TimeoutError` branch taken). -/
def genTimedOut (d t : Nat) : Bool := decide (t < d)

/-- Time at which `ask_question` actually leaves the executor block: the
later of `future.result` returning and the worker thread finishing, since
exiting the `with` block joins the worker. -/
def askGenElapsed (d t : Nat) : Nat := max (futureResultTime d t) d

example : (askQuestion true [] ("hi".data) (.ok ("paris".data))).cache
    = [("hi".data, "paris".data)] := by decide
example : (askQuestion true [("hi".data, "paris".data)] ("  HI ".data) .timeout).answer
    = "paris".data := by decide
example : (askQuestion true [] (" ".data) .timeout).answer = invalidQuestionMsg := by decide

/-!  Helper lemmas about the cache operations. -/

lemma cacheGet_eq_none_iff (c : Cache) (k : Str) :
    cacheGet c k = none ↔ k ∉ c.map Prod.fst := by
  induction c with
  | nil => simp [cacheGet]
  | cons p r ih =>
    obtain ⟨k0, v0⟩ := p
    by_cases hk : k0 = k
    · subst hk
      simp [cacheGet]
    · simp only [cacheGet, if_neg hk, List.map_cons, List.mem_cons, ih]
      constructor
      · intro h hor
        rcases hor with h1 | h2
        · exact hk h1.symm
        · exact h h2
      · intro h h2
        exact h (Or.inr h2)

lemma cachePut_of_not_mem (c : Cache) (k v : Str) (h : k ∉ c.map Prod.fst) :
    cachePut c k v = c ++ [(k, v)] := by
  induction c with
  | nil => rfl
  | cons p r ih =>
    obtain ⟨k0, v0⟩ := p
    simp only [List.map_cons, List.mem_cons] at h
    push_neg at h
    have hne : ¬ (k0 = k) := fun hh => h.1 hh.symm
    simp only [cachePut, if_neg hne, ih h.2, List.cons_append]

lemma cachePut_keys_of_mem (c : Cache) (k v : Str) (h : k ∈ c.map Prod.fst) :
    (cachePut c k v).map Prod.fst = c.map Prod.fst := by
  induction c with
  | nil => simp at h
  | cons p r ih =>
    obtain ⟨k0, v0⟩ := p
    by_cases hk : k0 = k
    · simp [cachePut, hk]
    · have hmem : k ∈ r.map Prod.fst := by
        simp only [List.map_cons, List.mem_cons] at h
        rcases h with h1 | h2
        · exact absurd h1.symm hk
        · exact h2
      simp [cachePut, hk, ih hmem]

lemma cachePut_length_le (c : Cache) (k v : Str) :
    (cachePut c k v).length ≤ c.length + 1 := by
  induction c with
  | nil => simp [cachePut]
  | cons p r ih =>
    obtain ⟨k0, v0⟩ := p
    by_cases hk : k0 = k
    · simp [cachePut, hk]
    · simp only [cachePut, if_neg hk, List.length_cons]
      omega

lemma mem_cachePut (c : Cache) (k v : Str) (p : Str × Str) (h : p ∈ cachePut c k v) :
    p ∈ c ∨ p.2 = v := by
  induction c with
  | nil =>
    simp only [cachePut, List.mem_singleton] at h
    right
    rw [h]
  | cons q r ih =>
    obtain ⟨k0, v0⟩ := q
    by_cases hk : k0 = k
    · simp only [cachePut, if_pos hk, List.mem_cons] at h
      rcases h with h1 | h2
      · right
        rw [h1]
      · exact Or.inl (List.mem_cons_of_mem _ h2)
    · simp only [cachePut, if_neg hk, List.mem_cons] at h
      rcases h with h1 | h2
      · exact Or.inl (h1 ▸ List.mem_cons_self _ _)
      · rcases ih h2 with h3 | h3
        · exact Or.inl (List.mem_cons_of_mem _ h3)
        · exact Or.inr h3

lemma evictOldest_length (c : Cache) (h : c.length ≤ CACHE_SIZE + 1) :
    (evictOldest c).length ≤ CACHE_SIZE := by
  unfold evictOldest
  split
  · rw [List.length_tail]
    omega
  · omega

lemma mem_evictOldest (c : Cache) (p : Str × Str) (h : p ∈ evictOldest c) : p ∈ c := by
  unfold evictOldest at h
  split at h
  · exact List.mem_of_mem_tail h
  · exact h

lemma tail_append_single (c : Cache) (x : Str × Str) (h : c ≠ []) :
    (c ++ [x]).tail = c.tail ++ [x] := by
  cases c with
  | nil => exact absurd rfl h
  | cons a r => rfl

/-- Case analysis on the cache effect of one `ask_question` call: either the
cache is untouched, or a non-empty sanitized result is inserted under the
question's fingerprint followed by the capacity check. -/
lemma askQuestion_cache_cases (c : Cache) (q : Str) (o : GenOutcome) :
    (askQuestion true c q o).cache = c ∨
    ∃ raw, sanitize raw ≠ [] ∧
      (askQuestion true c q o).cache = evictOldest (cachePut c (fpOf q) (sanitize raw)) := by
  by_cases hq : strip q = []
  · left
    simp [askQuestion, hq]
  · cases hget : cacheGet c (fpOf q) with
    | some v =>
      left
      simp [askQuestion, hq, hget, ENABLE_QUERY_CACHE]
    | none =>
      cases o with
      | timeout =>
        left
        simp [askQuestion, hq, hget, ENABLE_QUERY_CACHE]
      | err e =>
        left
        simp [askQuestion, hq, hget, ENABLE_QUERY_CACHE]
      | ok raw =>
        by_cases hr : sanitize raw = []
        · left
          simp [askQuestion, hq, hget, hr, ENABLE_QUERY_CACHE]
        · right
          exact ⟨raw, hr, by simp [askQuestion, hq, hget, hr, ENABLE_QUERY_CACHE]⟩

/-- C2: for every cache state, every non-empty question that misses the
cache, and every exception detail the retrieval/generation chain may raise,
`ask_question` catches the failure and answers with the fixed generic
message, which does not depend on the exception detail — no internal
exception detail reaches the caller. -/
theorem pipeline_error_answer_is_generic (c : Cache) (q e : Str)
    (hq : strip q ≠ []) (hmiss : cacheGet c (fpOf q) = none) :
    (askQuestion true c q (.err e)).answer = genericErrorMsg := by
  simp [askQuestion, hq, hmiss, ENABLE_QUERY_CACHE]

theorem pipeline_error_answer_is_generic_witness :
    (askQuestion true [] ("What is X".data)
      (.err ("ValueError: boom in retriever line 42".data))).answer = genericErrorMsg :=
  pipeline_error_answer_is_generic [] ("What is X".data)
    ("ValueError: boom in retriever line 42".data) (by decide) (by decide)

/-- C3: for every non-empty question that misses the cache, when the
generator call is still running as the timeout elapses, `ask_question`
returns the fixed sentinel as the answer; the `TimeoutError` is consumed
inside `ask_question` (the embedding is a total function on this outcome),
never propagated to the caller. -/
theorem timeout_returns_sentinel (c : Cache) (q : Str)
    (hq : strip q ≠ []) (hmiss : cacheGet c (fpOf q) = none) :
    (askQuestion true c q .timeout).answer = sentinelAnswer := by
  simp [askQuestion, hq, hmiss, ENABLE_QUERY_CACHE]

theorem timeout_returns_sentinel_witness :
    (askQuestion true [] ("What is X".data) .timeout).answer = sentinelAnswer :=
  timeout_returns_sentinel [] ("What is X".data) (by decide) (by decide)

/-- C10: a generation timeout leaves the cache unchanged, the question's
fingerprint stays absent, and a subsequent call with the same question
misses the cache and invokes the generation chain again (whatever its
outcome) rather than replaying the sentinel from the cache. -/
theorem timeout_leaves_cache_unchanged (c : Cache) (q : Str)
    (hq : strip q ≠ []) (hmiss : cacheGet c (fpOf q) = none) :
    (askQuestion true c q .timeout).cache = c ∧
    cacheGet (askQuestion true c q .timeout).cache (fpOf q) = none ∧
    ∀ o, (askQuestion true (askQuestion true c q .timeout).cache q o).ranGen = true := by
  have hc : (askQuestion true c q .timeout).cache = c := by
    simp [askQuestion, hq, hmiss, ENABLE_QUERY_CACHE]
  refine ⟨hc, by rw [hc]; exact hmiss, ?_⟩
  intro o
  rw [hc]
  cases o with
  | timeout => simp [askQuestion, hq, hmiss, ENABLE_QUERY_CACHE]
  | err e => simp [askQuestion, hq, hmiss, ENABLE_QUERY_CACHE]
  | ok raw =>
    by_cases hr : sanitize raw = []
    · simp [askQuestion, hq, hmiss, ENABLE_QUERY_CACHE, hr]
    · simp [askQuestion, hq, hmiss, ENABLE_QUERY_CACHE, hr]

theorem timeout_leaves_cache_unchanged_witness :
    (askQuestion true [] ("What is X".data) .timeout).cache = [] ∧
    cacheGet (askQuestion true [] ("What is X".data) .timeout).cache
      (fpOf ("What is X".data)) = none ∧
    ∀ o, (askQuestion true (askQuestion true [] ("What is X".data) .timeout).cache
      ("What is X".data) o).ranGen = true :=
  timeout_leaves_cache_unchanged [] ("What is X".data) (by decide) (by decide)

/-- C6: provenance validation replaces the whole response with the fixed
sentinel exactly when the lower-cased response contains one of the fixed
hedge phrases — a list containing "as an ai" — and returns the response
unchanged when no listed phrase occurs. -/
theorem provenance_validation_replaces_or_keeps (r : Str) :
    ("as an ai".data ∈ genericIndicators) ∧
    (genericIndicators.any (fun ind => containsSub (toLowerStr r) ind) = true →
      validate_context_response r = sentinelAnswer) ∧
    (genericIndicators.any (fun ind => containsSub (toLowerStr r) ind) = false →
      validate_context_response r = r) := by
  refine ⟨by decide, ?_, ?_⟩ <;> intro h <;> simp [validate_context_response, h]

theorem provenance_validation_replaces_or_keeps_witness :
    validate_context_response ("As an AI, I think the answer is Paris.".data) = sentinelAnswer ∧
    validate_context_response ("Paris is the capital.".data) = "Paris is the capital.".data :=
  ⟨(provenance_validation_replaces_or_keeps ("As an AI, I think the answer is Paris.".data)).2.1
      (by decide),
   (provenance_validation_replaces_or_keeps ("Paris is the capital.".data)).2.2 (by decide)⟩

/-- C4 (code bug): with a generator taking 200 ms under a 50 ms timeout, the
`TimeoutError` branch is taken, but `ask_question` leaves the executor block
only at 200 ms — exiting the `with ThreadPoolExecutor` block joins the
still-running worker — so the call does not return near the 50-60 ms bound
the specification requires. -/
theorem timeout_still_blocks_until_generator_finishes :
    genTimedOut 200 50 = true ∧ askGenElapsed 200 50 = 200 ∧ ¬ askGenElapsed 200 50 ≤ 60 :=
  ⟨rfl, rfl, by decide⟩

/-!  Concrete questions and answers used for the cache scenarios. -/

/-- The i-th distinct question. -/
def qn (i : Nat) : Str := 'q' :: Nat.toDigits 10 i

/-- The i-th distinct raw answer (short, sanitization-neutral, non-empty). -/
def an (i : Nat) : Str := 'a' :: Nat.toDigits 10 i

/-- The eviction scenario of the claim: insert `q0` and `q1`, access `q0`
again (a cache hit), then insert `q2` … `q100` — capacity + 1 distinct
fingerprints in total, with `q1` the least-recently-accessed entry when the
capacity is exceeded. -/
def c1Ops : List Op :=
  .ask (qn 0) (.ok (an 0)) :: .ask (qn 1) (.ok (an 1)) :: .ask (qn 0) (.ok (an 0)) ::
    (List.range 99).map (fun i => .ask (qn (i + 2)) (.ok (an (i + 2))))

set_option maxRecDepth 100000

/-- C1 counterexample: in the eviction scenario the evicted entry is `q0`,
the least-recently-inserted fingerprint — even though it was accessed again
after `q1` was inserted — while `q1`, the least-recently-accessed entry,
survives.  The claim predicts the exact opposite (`q0` kept, `q1` evicted):
a cache hit reads the `OrderedDict` without moving the entry, and
`popitem` with `last` False removes the oldest-inserted key. -/
theorem cache_hit_does_not_refresh_recency :
    cacheGet (runOps [] c1Ops) (fpOf (qn 0)) = none ∧
    cacheGet (runOps [] c1Ops) (fpOf (qn 1)) = some (an 1) ∧
    (runOps [] c1Ops).length = 100 :=
  ⟨rfl, rfl, rfl⟩

/-- C1 amended: the cache evicts by least-recent insertion, not least-recent
access.  A hit on an existing fingerprint returns the cached answer and
leaves the cache (hence the entry's position) unchanged; an `OrderedDict`
assignment to an existing key keeps the key order unchanged; and inserting
a fresh fingerprint into a full cache appends it and evicts the single
oldest-inserted entry, so the cache size never exceeds the capacity. -/
theorem cache_eviction_is_insertion_order (c : Cache) (q1 q2 raw w k : Str)
    (o : GenOutcome) :
    (strip q1 ≠ [] → ∀ v, cacheGet c (fpOf q1) = some v →
      (askQuestion true c q1 o).answer = v ∧ (askQuestion true c q1 o).cache = c) ∧
    (k ∈ c.map Prod.fst → (cachePut c k w).map Prod.fst = c.map Prod.fst) ∧
    (strip q2 ≠ [] → cacheGet c (fpOf q2) = none → c.length = CACHE_SIZE →
      sanitize raw ≠ [] →
      (askQuestion true c q2 (.ok raw)).cache = c.tail ++ [(fpOf q2, sanitize raw)]) := by
  refine ⟨?_, fun hk => cachePut_keys_of_mem c k w hk, ?_⟩
  · intro hq v hget
    constructor <;> simp [askQuestion, hq, hget, ENABLE_QUERY_CACHE]
  · intro hq hget hlen hraw
    have hnm : fpOf q2 ∉ c.map Prod.fst := (cacheGet_eq_none_iff c (fpOf q2)).mp hget
    have hput : cachePut c (fpOf q2) (sanitize raw) = c ++ [(fpOf q2, sanitize raw)] :=
      cachePut_of_not_mem c (fpOf q2) (sanitize raw) hnm
    have hcne : c ≠ [] := by
      intro h
      rw [h] at hlen
      simp [CACHE_SIZE] at hlen
    have hlen2 : (c ++ [(fpOf q2, sanitize raw)]).length > CACHE_SIZE := by
      simp [hlen]
    have h1 : (askQuestion true c q2 (.ok raw)).cache
        = evictOldest (cachePut c (fpOf q2) (sanitize raw)) := by
      simp [askQuestion, hq, hget, ENABLE_QUERY_CACHE, hraw]
    rw [h1, hput]
    unfold evictOldest
    rw [if_pos hlen2, tail_append_single c _ hcne]

theorem cache_eviction_is_insertion_order_witness :
    ((askQuestion true [("hi".data, "paris".data)] ("HI ".data) .timeout).answer
        = "paris".data ∧
     (askQuestion true [("hi".data, "paris".data)] ("HI ".data) .timeout).cache
        = [("hi".data, "paris".data)]) ∧
    ((cachePut [("hi".data, "paris".data)] ("hi".data) ("other".data)).map Prod.fst
        = [("hi".data, "paris".data)].map Prod.fst) ∧
    (askQuestion true ((List.range 100).map (fun i => (qn i, an i))) (qn 100)
        (.ok (an 100))).cache
      = ((List.range 100).map (fun i => (qn i, an i))).tail
          ++ [(fpOf (qn 100), sanitize (an 100))] :=
  ⟨(cache_eviction_is_insertion_order [("hi".data, "paris".data)] ("HI ".data)
      ("HI ".data) ("x".data) ("x".data) ("hi".data) .timeout).1
      (by decide) ("paris".data) (by decide),
   (cache_eviction_is_insertion_order [("hi".data, "paris".data)] ("HI ".data)
      ("HI ".data) ("x".data) ("other".data) ("hi".data) .timeout).2.1 (by decide),
   (cache_eviction_is_insertion_order ((List.range 100).map (fun i => (qn i, an i)))
      (qn 100) (qn 100) (an 100) ("x".data) ("x".data) .timeout).2.2
      (by decide) (by decide) (by decide) (by decide)⟩

/-- C8: starting from the empty cache, after every sequence of completed
`ask_question` calls and cache clears the number of cached entries never
exceeds `CACHE_SIZE` (100). -/
theorem cache_size_never_exceeds_capacity (ops : List Op) :
    (runOps [] ops).length ≤ CACHE_SIZE := by
  have step : ∀ (c : Cache) (op : Op), c.length ≤ CACHE_SIZE →
      (stepOp c op).length ≤ CACHE_SIZE := by
    intro c op hc
    cases op with
    | clear => simp [stepOp]
    | ask q o =>
      rcases askQuestion_cache_cases c q o with h | ⟨raw, _, h⟩
      · simpa [stepOp, h] using hc
      · have hput := cachePut_length_le c (fpOf q) (sanitize raw)
        have := evictOldest_length (cachePut c (fpOf q) (sanitize raw)) (by omega)
        simpa [stepOp, h] using this
  have inv : ∀ (ops : List Op) (c : Cache), c.length ≤ CACHE_SIZE →
      (runOps c ops).length ≤ CACHE_SIZE := by
    intro ops
    induction ops with
    | nil => intro c hc; simpa [runOps] using hc
    | cons op rest ih =>
      intro c hc
      exact ih (stepOp c op) (step c op hc)
  exact inv ops [] (by simp [CACHE_SIZE])

/-- C9: starting from the empty cache, every value stored in the query cache
after any sequence of operations is a non-empty string that is the image of
some raw generator output under the three sanitization stages — leak
stripping, repetition detection, provenance validation — applied in that
order; hence a cache hit (which returns a stored value verbatim) always
yields sanitized, non-empty text. -/
theorem cached_values_are_sanitized_nonempty (ops : List Op) (p : Str × Str)
    (hp : p ∈ runOps [] ops) :
    p.2 ≠ [] ∧ ∃ raw,
      p.2 = validate_context_response (detect_repetition (clean_response raw)) := by
  have step : ∀ (c : Cache) (op : Op),
      (∀ p ∈ c, p.2 ≠ [] ∧ ∃ raw,
        p.2 = validate_context_response (detect_repetition (clean_response raw))) →
      ∀ p ∈ stepOp c op, p.2 ≠ [] ∧ ∃ raw,
        p.2 = validate_context_response (detect_repetition (clean_response raw)) := by
    intro c op hc p hp
    cases op with
    | clear => simp [stepOp] at hp
    | ask q o =>
      rcases askQuestion_cache_cases c q o with h | ⟨raw, hraw, h⟩
      · rw [stepOp] at hp
        rw [h] at hp
        exact hc p hp
      · rw [stepOp] at hp
        rw [h] at hp
        have hput := mem_cachePut c (fpOf q) (sanitize raw) p (mem_evictOldest _ p hp)
        rcases hput with h2 | h2
        · exact hc p h2
        · exact ⟨h2 ▸ hraw, raw, h2⟩
  have inv : ∀ (ops : List Op) (c : Cache),
      (∀ p ∈ c, p.2 ≠ [] ∧ ∃ raw,
        p.2 = validate_context_response (detect_repetition (clean_response raw))) →
      ∀ p ∈ runOps c ops, p.2 ≠ [] ∧ ∃ raw,
        p.2 = validate_context_response (detect_repetition (clean_response raw)) := by
    intro ops
    induction ops with
    | nil => intro c hc; simpa [runOps] using hc
    | cons op rest ih =>
      intro c hc
      exact ih (stepOp c op) (step c op hc)
  exact inv ops [] (by simp) p hp

theorem cached_values_are_sanitized_nonempty_witness :
    ("Paris".data ≠ ([] : Str)) ∧ ∃ raw,
      "Paris".data = validate_context_response (detect_repetition (clean_response raw)) :=
  cached_values_are_sanitized_nonempty [.ask ("hi".data) (.ok ("Paris".data))]
    ("hi".data, "Paris".data) (by decide)

/-!  Context-assembly dedup (C7). -/

/-- Modelled from the spec's words, for comparison with `dedupDocs`: keep
exactly those fragments for which no earlier fragment of the original list
has the same dedup fingerprint, in their original order; `prev` accumulates
the fragments already scanned. -/
def specDedupKeepFirst (prev : List Str) : List Str → List Str
  | [] => []
  | d :: rest =>
    if ∀ x ∈ prev, fpr x ≠ fpr d then d :: specDedupKeepFirst (prev ++ [d]) rest
    else specDedupKeepFirst (prev ++ [d]) rest

lemma dedupAux_sublist (docs : List Str) : ∀ seen, (dedupAux seen docs).Sublist docs := by
  induction docs with
  | nil =>
    intro seen
    simp [dedupAux]
  | cons d rest ih =>
    intro seen
    by_cases h : fpr d ∈ seen
    · simp only [dedupAux, if_pos h]
      exact (ih seen).cons d
    · simp only [dedupAux, if_neg h]
      exact (ih (fpr d :: seen)).cons₂ d

lemma dedupAux_eq_spec (docs : List Str) : ∀ (seen prev : List Str),
    (∀ k, k ∈ seen ↔ ∃ x ∈ prev, fpr x = k) →
    dedupAux seen docs = specDedupKeepFirst prev docs := by
  induction docs with
  | nil =>
    intro seen prev _
    rfl
  | cons d rest ih =>
    intro seen prev h
    by_cases hmem : fpr d ∈ seen
    · have hcond : ¬ (∀ x ∈ prev, fpr x ≠ fpr d) := by
        rcases (h (fpr d)).mp hmem with ⟨x, hx, hfx⟩
        intro hall
        exact hall x hx hfx
      have hinv : ∀ k, k ∈ seen ↔ ∃ x ∈ prev ++ [d], fpr x = k := by
        intro k
        constructor
        · intro hk
          rcases (h k).mp hk with ⟨x, hx, hfx⟩
          exact ⟨x, List.mem_append_left _ hx, hfx⟩
        · rintro ⟨x, hx, hfx⟩
          rcases List.mem_append.mp hx with hx1 | hx1
          · exact (h k).mpr ⟨x, hx1, hfx⟩
          · have hxd : x = d := List.mem_singleton.mp hx1
            subst hxd
            rw [← hfx]
            exact hmem
      simp only [dedupAux, if_pos hmem, specDedupKeepFirst, if_neg hcond]
      exact ih seen (prev ++ [d]) hinv
    · have hcond : ∀ x ∈ prev, fpr x ≠ fpr d := by
        intro x hx hfx
        exact hmem ((h (fpr d)).mpr ⟨x, hx, hfx⟩)
      have hinv : ∀ k, k ∈ fpr d :: seen ↔ ∃ x ∈ prev ++ [d], fpr x = k := by
        intro k
        constructor
        · intro hk
          rcases List.mem_cons.mp hk with hk1 | hk1
          · exact ⟨d, List.mem_append_right _ (List.mem_singleton_self d), hk1.symm⟩
          · rcases (h k).mp hk1 with ⟨x, hx, hfx⟩
            exact ⟨x, List.mem_append_left _ hx, hfx⟩
        · rintro ⟨x, hx, hfx⟩
          rcases List.mem_append.mp hx with hx1 | hx1
          · exact List.mem_cons_of_mem _ ((h k).mpr ⟨x, hx1, hfx⟩)
          · have hxd : x = d := List.mem_singleton.mp hx1
            subst hxd
            rw [← hfx]
            exact List.mem_cons_self _ _
      simp only [dedupAux, if_neg hmem, specDedupKeepFirst, if_pos hcond]
      exact congrArg (List.cons d) (ih (fpr d :: seen) (prev ++ [d]) hinv)

/-- C7: the `_format_docs` dedup keeps exactly the fragments with no earlier
same-fingerprint fragment (the fingerprint being the stripped 200-character
prefix), the survivors keep their original rank order (a sublist of the
input), and two fragments with identical first 200 characters always have
the same fingerprint — so the later one is dropped. -/
theorem context_dedup_keeps_first_occurrences (docs : List Str) :
    dedupDocs docs = specDedupKeepFirst [] docs ∧
    (dedupDocs docs).Sublist docs ∧
    ∀ x y : Str, x.take 200 = y.take 200 → fpr x = fpr y := by
  refine ⟨dedupAux_eq_spec docs [] [] (by simp), dedupAux_sublist docs [], ?_⟩
  intro x y hxy
  unfold fpr
  rw [hxy]

theorem context_dedup_keeps_first_occurrences_witness :
    fpr (List.replicate 200 'a' ++ ['b']) = fpr (List.replicate 200 'a') :=
  (context_dedup_keeps_first_occurrences []).2.2 _ _ (by decide)

/-!  Lemmas about stripping and the leak-pattern matcher (C5). -/

lemma lstrip_length_le (s : Str) : (lstrip s).length ≤ s.length := by
  induction s with
  | nil => simp [lstrip]
  | cons c r ih =>
    cases hb : isSpace c with
    | true =>
      simp only [lstrip, hb, if_true]
      exact Nat.le_succ_of_le ih
    | false => simp [lstrip, hb]

lemma lstrip_head_not_space (s : Str) :
    lstrip s = [] ∨ ∃ c r, lstrip s = c :: r ∧ isSpace c = false := by
  induction s with
  | nil => exact Or.inl rfl
  | cons c r ih =>
    cases hb : isSpace c with
    | true => simpa [lstrip, hb] using ih
    | false => exact Or.inr ⟨c, r, by simp [lstrip, hb], hb⟩

lemma lstrip_of_head_not_space (c : Char) (r : Str) (h : isSpace c = false) :
    lstrip (c :: r) = c :: r := by
  simp [lstrip, h]

lemma lstrip_lstrip (s : Str) : lstrip (lstrip s) = lstrip s := by
  rcases lstrip_head_not_space s with h | ⟨c, r, h, hc⟩
  · rw [h]
    rfl
  · rw [h]
    exact lstrip_of_head_not_space c r hc

lemma lstrip_suffix (s : Str) : lstrip s <:+ s := by
  induction s with
  | nil => exact List.suffix_refl _
  | cons c r ih =>
    cases hb : isSpace c with
    | true =>
      simp only [lstrip, hb, if_true]
      exact ih.trans (List.suffix_cons c r)
    | false =>
      simp only [lstrip, hb, if_false]
      exact List.suffix_refl _

lemma rstrip_pre (s : Str) : rstrip s <+: s := by
  have h := lstrip_suffix s.reverse
  have h2 := List.reverse_prefix.mpr h
  rw [List.reverse_reverse] at h2
  exact h2

lemma lstrip_take_of_fixed (t : Str) (i : Nat) (h : lstrip t = t) :
    lstrip (t.take i) = t.take i := by
  cases t with
  | nil => simp [lstrip]
  | cons c r =>
    have hc : isSpace c = false := by
      cases hb : isSpace c with
      | false => rfl
      | true =>
        simp only [lstrip, hb, if_true] at h
        have hlen := lstrip_length_le r
        rw [h, List.length_cons] at hlen
        omega
    cases i with
    | zero => simp [lstrip]
    | succ j =>
      rw [List.take_succ_cons]
      exact lstrip_of_head_not_space c _ hc

lemma rstrip_rstrip (s : Str) : rstrip (rstrip s) = rstrip s := by
  unfold rstrip
  rw [List.reverse_reverse, lstrip_lstrip]

lemma lstrip_strip (s : Str) : lstrip (strip s) = strip s := by
  rw [strip]
  rcases lstrip_head_not_space s with h | ⟨c, r, h, hc⟩
  · rw [h]
    rfl
  · rw [h]
    cases hp : rstrip (c :: r) with
    | nil => rfl
    | cons c2 r2 =>
      have hpre := rstrip_pre (c :: r)
      rw [hp] at hpre
      obtain ⟨hc2, -⟩ := List.cons_prefix_cons.mp hpre
      subst hc2
      exact lstrip_of_head_not_space c2 r2 hc

lemma strip_idem (s : Str) : strip (strip s) = strip s := by
  show rstrip (lstrip (strip s)) = strip s
  rw [lstrip_strip]
  show rstrip (rstrip (lstrip s)) = strip s
  rw [rstrip_rstrip]
  rfl

lemma matchAfterWS_mono (lit : Str) : ∀ r1 r2 : Str, r1 <+: r2 →
    matchAfterWS lit r1 = true → matchAfterWS lit r2 = true := by
  intro r1
  induction r1 with
  | nil =>
    intro r2 _ hm
    simp only [matchAfterWS] at hm
    have hl : lit <+: toLowerStr [] := List.isPrefixOf_iff_prefix.mp hm
    have hnil : lit = [] := List.prefix_nil.mp hl
    subst hnil
    cases r2 with
    | nil => simp [matchAfterWS]
    | cons c r =>
      have hp : ([] : Str).isPrefixOf (toLowerStr (c :: r)) = true :=
        List.isPrefixOf_iff_prefix.mpr List.nil_prefix
      simp [matchAfterWS, hp]
  | cons c rr ih =>
    intro r2 hpre hm
    cases r2 with
    | nil =>
      have := List.prefix_nil.mp hpre
      simp at this
    | cons c2 r2t =>
      obtain ⟨hc, hrt⟩ := List.cons_prefix_cons.mp hpre
      subst hc
      simp only [matchAfterWS, Bool.or_eq_true, Bool.and_eq_true] at hm ⊢
      rcases hm with hm | ⟨hsp, hm⟩
      · left
        have h1 : lit <+: toLowerStr (c :: rr) := List.isPrefixOf_iff_prefix.mp hm
        have hcp : (c :: rr) <+: (c :: r2t) := List.cons_prefix_cons.mpr ⟨rfl, hrt⟩
        have h2 : toLowerStr (c :: rr) <+: toLowerStr (c :: r2t) := hcp.map Char.toLower
        exact List.isPrefixOf_iff_prefix.mpr (h1.trans h2)
      · exact Or.inr ⟨hsp, ih r2t hrt hm⟩

lemma patMatchAt_mono (lit : Str) (s1 s2 : Str) (hpre : s1 <+: s2)
    (hm : patMatchAt lit s1 = true) : patMatchAt lit s2 = true := by
  cases s1 with
  | nil => simp [patMatchAt] at hm
  | cons c r1 =>
    cases s2 with
    | nil =>
      have := List.prefix_nil.mp hpre
      simp at this
    | cons c2 r2 =>
      obtain ⟨hc, hrt⟩ := List.cons_prefix_cons.mp hpre
      subst hc
      simp only [patMatchAt, Bool.and_eq_true] at hm ⊢
      exact ⟨hm.1, matchAfterWS_mono lit r1 r2 hrt hm.2⟩

lemma prefix_drop : ∀ (j : Nat) (t1 t2 : Str), t1 <+: t2 → t1.drop j <+: t2.drop j := by
  intro j
  induction j with
  | zero =>
    intro t1 t2 h
    simpa using h
  | succ n ih =>
    intro t1 t2 h
    cases t1 with
    | nil =>
      simp only [List.drop_nil]
      exact List.nil_prefix
    | cons c r1 =>
      cases t2 with
      | nil =>
        have := List.prefix_nil.mp h
        simp at this
      | cons c2 r2 =>
        obtain ⟨-, hrt⟩ := List.cons_prefix_cons.mp h
        simpa using ih r1 r2 hrt

lemma firstMatch_none_spec (lit : Str) : ∀ t : Str, firstMatch lit t = none →
    ∀ j, patMatchAt lit (t.drop j) = false := by
  intro t
  induction t with
  | nil =>
    intro _ j
    simp [patMatchAt]
  | cons c r ih =>
    intro h j
    cases hpm : patMatchAt lit (c :: r) with
    | true => simp [firstMatch, hpm] at h
    | false =>
      simp only [firstMatch, hpm, Bool.false_eq_true, if_false, Option.map_eq_none'] at h
      cases j with
      | zero => simpa using hpm
      | succ n => simpa using ih h n

lemma firstMatch_some_spec (lit : Str) : ∀ (t : Str) (i : Nat), firstMatch lit t = some i →
    patMatchAt lit (t.drop i) = true ∧ ∀ j, j < i → patMatchAt lit (t.drop j) = false := by
  intro t
  induction t with
  | nil =>
    intro i h
    simp [firstMatch] at h
  | cons c r ih =>
    intro i h
    cases hpm : patMatchAt lit (c :: r) with
    | true =>
      simp only [firstMatch, hpm, if_true] at h
      have hi : i = 0 := by
        cases h
        rfl
      subst hi
      exact ⟨by simpa using hpm, fun j hj => absurd hj (Nat.not_lt_zero j)⟩
    | false =>
      simp only [firstMatch, hpm, Bool.false_eq_true, if_false, Option.map_eq_some'] at h
      obtain ⟨a, ha, hai⟩ := h
      obtain ⟨h1, h2⟩ := ih a ha
      subst hai
      constructor
      · simpa using h1
      · intro j hj
        cases j with
        | zero => simpa using hpm
        | succ n => simpa using h2 n (Nat.lt_of_succ_lt_succ hj)

lemma firstMatch_none_of_no_match (lit : Str) : ∀ t : Str,
    (∀ j, patMatchAt lit (t.drop j) = false) → firstMatch lit t = none := by
  intro t
  induction t with
  | nil => intro _; rfl
  | cons c r ih =>
    intro h
    have h0 := h 0
    simp only [List.drop_zero] at h0
    have hr : firstMatch lit r = none := ih (fun j => by simpa using h (j + 1))
    simp [firstMatch, h0, hr]

lemma firstMatch_none_mono (lit : Str) (t1 t2 : Str) (hpre : t1 <+: t2)
    (h : firstMatch lit t2 = none) : firstMatch lit t1 = none := by
  apply firstMatch_none_of_no_match
  intro j
  cases hq : patMatchAt lit (t1.drop j) with
  | false => rfl
  | true =>
    have hmono := patMatchAt_mono lit _ _ (prefix_drop j t1 t2 hpre) hq
    have hf := firstMatch_none_spec lit t2 h j
    rw [hmono] at hf
    simp at hf

lemma cutPattern_of_none (t lit : Str) (h : firstMatch lit t = none) :
    cutPattern t lit = t := by
  simp [cutPattern, h]

lemma cutPattern_of_some (t lit : Str) (i : Nat) (h : firstMatch lit t = some i) :
    cutPattern t lit = strip (t.take i) := by
  simp [cutPattern, h]

lemma foldl_cutPattern_of_none (lits : List Str) : ∀ t : Str,
    (∀ lit ∈ lits, firstMatch lit t = none) → List.foldl cutPattern t lits = t := by
  induction lits with
  | nil => intro t _; rfl
  | cons l ls ih =>
    intro t h
    rw [List.foldl_cons, cutPattern_of_none t l (h l (List.mem_cons_self _ _))]
    exact ih t (fun lit hl => h lit (List.mem_cons_of_mem _ hl))

/-!
Multi-pattern behaviour of the leak-pattern loop (C5): when patterns match,
the loop's net effect is a cut at the overall leftmost match start followed
by a trim.  The key structural facts are that distinct leak-pattern
literals never match at the same literal position, and that no occurrence
of any pattern can begin strictly inside another occurrence's span, so the
cut made by a later-processed pattern never destroys the leftmost
occurrence before its own pattern's turn.
-/

/-- A leak pattern matches at position `p` of the text. -/
def occursAt (l t : Str) (p : Nat) : Bool := patMatchAt l (t.drop p)

/-- Length of the leading whitespace run of a text. -/
def wsRunLen : Str → Nat
  | [] => 0
  | c :: r => if isSpace c then wsRunLen r + 1 else 0

/-- The first character, if any, is not whitespace. -/
def headNotSpace : Str → Bool
  | [] => true
  | c :: _ => !(isSpace c)

lemma toLower_of_isSpace (c : Char) (h : isSpace c = true) : Char.toLower c = c := by
  simp only [isSpace, Bool.or_eq_true, decide_eq_true_eq] at h
  rcases h with ((((h | h) | h) | h) | h) | h <;> subst h <;> decide

lemma getD_drop_add (t : Str) (q m : Nat) (d : Char) :
    (t.drop q).getD m d = t.getD (q + m) d := by
  rw [List.getD_eq_getElem?_getD, List.getD_eq_getElem?_getD, List.getElem?_drop]

lemma getD_take_of_lt (t : Str) (m n : Nat) (d : Char) (h : m < n) :
    (t.take n).getD m d = t.getD m d := by
  rw [List.getD_eq_getElem?_getD, List.getD_eq_getElem?_getD, List.getElem?_take_of_lt h]

lemma getD_mem_of_lt (l : Str) (m : Nat) (d : Char) (h : m < l.length) : l.getD m d ∈ l := by
  rw [List.getD_eq_getElem _ _ h]
  exact List.getElem_mem h

lemma prefix_getD (l u : Str) (m : Nat) (d : Char) (hpre : l <+: u) (hm : m < l.length) :
    u.getD m d = l.getD m d := by
  obtain ⟨r, rfl⟩ := hpre
  exact List.getD_append l r d m hm

lemma getD_map_lower (v : Str) (m : Nat) (hm : m < v.length) :
    (toLowerStr v).getD m ' ' = Char.toLower (v.getD m ' ') := by
  have hm2 : m < (toLowerStr v).length := by simpa [toLowerStr] using hm
  rw [List.getD_eq_getElem _ _ hm2, List.getD_eq_getElem _ _ hm]
  simp [toLowerStr]

lemma wsRunLen_take_all (w : Str) : (w.take (wsRunLen w)).all isSpace = true := by
  induction w with
  | nil => rfl
  | cons c r ih =>
    cases hc : isSpace c with
    | false => simp [wsRunLen, hc]
    | true =>
      have hr : (r.take (wsRunLen r)).all isSpace = true := ih
      simp [wsRunLen, hc, List.take_succ_cons, hr]

lemma wsRunLen_drop_le (w : Str) : ∀ d, d ≤ wsRunLen w → wsRunLen (w.drop d) = wsRunLen w - d := by
  intro d
  induction d generalizing w with
  | zero => simp
  | succ e ih =>
    intro hd
    cases w with
    | nil => simp [wsRunLen] at hd
    | cons c r =>
      cases hc : isSpace c with
      | false =>
        simp only [wsRunLen, hc, Bool.false_eq_true, if_false] at hd
        omega
      | true =>
        simp only [wsRunLen, hc, if_true] at hd ⊢
        rw [List.drop_succ_cons]
        rw [ih r (by omega)]
        omega

lemma matchAfterWS_at_run (l : Str) (hl : headNotSpace l = true) (hne : l ≠ []) :
    ∀ w : Str, matchAfterWS l w = true →
      l.isPrefixOf (toLowerStr (w.drop (wsRunLen w))) = true := by
  intro w
  induction w with
  | nil =>
    intro h
    simpa [wsRunLen, matchAfterWS] using h
  | cons c r ih =>
    intro h
    simp only [matchAfterWS, Bool.or_eq_true, Bool.and_eq_true] at h
    rcases h with h1 | ⟨hsp, h2⟩
    · have hcns : isSpace c = false := by
        cases l with
        | nil => exact absurd rfl hne
        | cons c1 ltl =>
          cases hc : isSpace c with
          | false => rfl
          | true =>
            exfalso
            have hpre : (c1 :: ltl) <+: (Char.toLower c :: toLowerStr r) := by
              have := List.isPrefixOf_iff_prefix.mp h1
              simpa [toLowerStr] using this
            have hc1 : c1 = Char.toLower c := (List.cons_prefix_cons.mp hpre).1
            rw [toLower_of_isSpace c hc] at hc1
            simp only [headNotSpace] at hl
            rw [Bool.not_eq_true'] at hl
            rw [hc1, hc] at hl
            simp at hl
      simp only [wsRunLen, hcns, Bool.false_eq_true, if_false, List.drop_zero]
      exact h1
    · simp only [wsRunLen, hsp, if_true, List.drop_succ_cons]
      exact ih h2

lemma matchAfterWS_of_parts (l : Str) : ∀ (k : Nat) (w : Str),
    (w.take k).all isSpace = true →
    l.isPrefixOf (toLowerStr (w.drop k)) = true →
    matchAfterWS l w = true := by
  intro k
  induction k with
  | zero =>
    intro w _ hpre
    cases w with
    | nil => simpa [matchAfterWS] using hpre
    | cons c r =>
      simp only [List.drop_zero] at hpre
      simp [matchAfterWS, hpre]
  | succ e ih =>
    intro w hws hpre
    cases w with
    | nil => simpa [matchAfterWS] using hpre
    | cons c r =>
      simp only [List.take_succ_cons, List.all_cons, Bool.and_eq_true] at hws
      simp only [List.drop_succ_cons] at hpre
      have hr := ih r hws.2 hpre
      simp [matchAfterWS, hws.1, hr]

lemma occursAt_parts (l t : Str) (p : Nat) (h : occursAt l t p = true) :
    p < t.length ∧ t.getD p ' ' = '\n' ∧ matchAfterWS l (t.drop (p + 1)) = true := by
  unfold occursAt at h
  have hp : p < t.length := by
    by_contra hge
    push_neg at hge
    rw [List.drop_eq_nil_iff.mpr hge] at h
    simp [patMatchAt] at h
  rw [List.drop_eq_getElem_cons hp] at h
  simp only [patMatchAt, Bool.and_eq_true, decide_eq_true_eq] at h
  exact ⟨hp, by rw [List.getD_eq_getElem _ _ hp]; exact h.1, h.2⟩

lemma occursAt_mk (l t : Str) (p : Nat) (hp : p < t.length) (hnl : t.getD p ' ' = '\n')
    (hm : matchAfterWS l (t.drop (p + 1)) = true) : occursAt l t p = true := by
  unfold occursAt
  rw [List.drop_eq_getElem_cons hp]
  simp only [patMatchAt, Bool.and_eq_true, decide_eq_true_eq]
  exact ⟨by rw [← List.getD_eq_getElem t ' ' hp]; exact hnl, hm⟩

lemma occursAt_literal (l t : Str) (p : Nat) (hl : headNotSpace l = true) (hne : l ≠ [])
    (h : occursAt l t p = true) :
    l.isPrefixOf (toLowerStr (t.drop (p + 1 + wsRunLen (t.drop (p + 1))))) = true := by
  obtain ⟨-, -, hm⟩ := occursAt_parts l t p h
  have hrun := matchAfterWS_at_run l hl hne (t.drop (p + 1)) hm
  rw [List.drop_drop] at hrun
  exact hrun

lemma occursAt_mono (l u t : Str) (p : Nat) (hpre : u <+: t) (h : occursAt l u p = true) :
    occursAt l t p = true :=
  patMatchAt_mono l _ _ (prefix_drop p u t hpre) h

lemma occursAt_take (l t : Str) (p n : Nat) (hl : headNotSpace l = true) (hne : l ≠ [])
    (h : occursAt l t p = true)
    (hn : p + 1 + wsRunLen (t.drop (p + 1)) + l.length ≤ n) :
    occursAt l (t.take n) p = true := by
  obtain ⟨hp, hnl, -⟩ := occursAt_parts l t p h
  have hlit := List.isPrefixOf_iff_prefix.mp (occursAt_literal l t p hl hne h)
  apply occursAt_mk
  · simp only [List.length_take]
    omega
  · rw [getD_take_of_lt t p n ' ' (by omega)]
    exact hnl
  · rw [List.drop_take]
    apply matchAfterWS_of_parts l (wsRunLen (t.drop (p + 1)))
    · rw [List.take_take]
      have hmin : min (wsRunLen (t.drop (p + 1))) (n - (p + 1)) = wsRunLen (t.drop (p + 1)) := by
        omega
      rw [hmin]
      exact wsRunLen_take_all (t.drop (p + 1))
    · rw [List.drop_take, List.drop_drop]
      apply List.isPrefixOf_iff_prefix.mpr
      unfold toLowerStr
      rw [List.map_take]
      apply List.prefix_take_iff.mpr
      refine ⟨?_, by omega⟩
      unfold toLowerStr at hlit
      exact hlit

lemma firstMatch_eq_some_of (l u : Str) (i : Nat) (h1 : occursAt l u i = true)
    (h2 : ∀ p, p < i → occursAt l u p = false) : firstMatch l u = some i := by
  cases hfm : firstMatch l u with
  | none =>
    have hs := firstMatch_none_spec l u hfm i
    unfold occursAt at h1
    rw [h1] at hs
    simp at hs
  | some j =>
    obtain ⟨hj1, hj2⟩ := firstMatch_some_spec l u j hfm
    rcases Nat.lt_trichotomy i j with h | h | h
    · have hs := hj2 i h
      unfold occursAt at h1
      rw [h1] at hs
      simp at hs
    · rw [h]
    · have hs := h2 j h
      unfold occursAt at hs
      rw [hj1] at hs
      simp at hs

lemma occursAt_same_literal (l1 l2 t : Str) (p : Nat)
    (hh1 : headNotSpace l1 = true) (hn1 : l1 ≠ [])
    (hh2 : headNotSpace l2 = true) (hn2 : l2 ≠ [])
    (h1 : occursAt l1 t p = true) (h2 : occursAt l2 t p = true) :
    l1 <+: l2 ∨ l2 <+: l1 :=
  List.prefix_or_prefix_of_prefix
    (List.isPrefixOf_iff_prefix.mp (occursAt_literal l1 t p hh1 hn1 h1))
    (List.isPrefixOf_iff_prefix.mp (occursAt_literal l2 t p hh2 hn2 h2))

lemma occursAt_apart (l1 l2 t : Str) (p1 p2 : Nat)
    (hh1 : headNotSpace l1 = true) (hn1 : l1 ≠ []) (hnl1 : ∀ c ∈ l1, c ≠ '\n')
    (hh2 : headNotSpace l2 = true) (hn2 : l2 ≠ [])
    (h1 : occursAt l1 t p1 = true) (h2 : occursAt l2 t p2 = true)
    (hlt : p1 < p2) (hsp : p2 < p1 + 1 + wsRunLen (t.drop (p1 + 1)) + l1.length) :
    l1 <+: l2 ∨ l2 <+: l1 := by
  by_cases hq : p2 < p1 + 1 + wsRunLen (t.drop (p1 + 1))
  · have hd : t.drop (p2 + 1) = (t.drop (p1 + 1)).drop (p2 - p1) := by
      rw [List.drop_drop]
      congr 1
      omega
    have hk2 : wsRunLen (t.drop (p2 + 1)) = wsRunLen (t.drop (p1 + 1)) - (p2 - p1) := by
      rw [hd, wsRunLen_drop_le (t.drop (p1 + 1)) (p2 - p1) (by omega)]
    have ha := occursAt_literal l1 t p1 hh1 hn1 h1
    have hb := occursAt_literal l2 t p2 hh2 hn2 h2
    rw [hk2] at hb
    have heq : p2 + 1 + (wsRunLen (t.drop (p1 + 1)) - (p2 - p1))
        = p1 + 1 + wsRunLen (t.drop (p1 + 1)) := by omega
    rw [heq] at hb
    exact List.prefix_or_prefix_of_prefix (List.isPrefixOf_iff_prefix.mp ha)
      (List.isPrefixOf_iff_prefix.mp hb)
  · exfalso
    push_neg at hq
    have hpa := List.isPrefixOf_iff_prefix.mp (occursAt_literal l1 t p1 hh1 hn1 h1)
    obtain ⟨hp2len, hp2nl, -⟩ := occursAt_parts l2 t p2 h2
    have hmlen : p2 - (p1 + 1 + wsRunLen (t.drop (p1 + 1))) < l1.length := by omega
    have hgd := prefix_getD l1 _ _ ' ' hpa hmlen
    have hlen : p2 - (p1 + 1 + wsRunLen (t.drop (p1 + 1)))
        < (t.drop (p1 + 1 + wsRunLen (t.drop (p1 + 1)))).length := by
      simp only [List.length_drop]
      omega
    rw [getD_map_lower _ _ hlen, getD_drop_add] at hgd
    have harith : p1 + 1 + wsRunLen (t.drop (p1 + 1))
        + (p2 - (p1 + 1 + wsRunLen (t.drop (p1 + 1)))) = p2 := by omega
    rw [harith, hp2nl] at hgd
    have hnl : Char.toLower '\n' = '\n' := by decide
    rw [hnl] at hgd
    exact hnl1 _ (getD_mem_of_lt l1 _ ' ' hmlen) hgd.symm

lemma exists_lstrip_decomp (u : Str) : ∃ v, u = v ++ lstrip u ∧ v.all isSpace = true := by
  induction u with
  | nil => exact ⟨[], rfl, rfl⟩
  | cons c r ih =>
    cases hc : isSpace c with
    | false => exact ⟨[], by simp [lstrip, hc], rfl⟩
    | true =>
      obtain ⟨v, hv, hall⟩ := ih
      refine ⟨c :: v, ?_, ?_⟩
      · simp only [lstrip, hc, if_true, List.cons_append]
        rw [← hv]
      · simp [hall, hc]

lemma exists_rstrip_decomp (u : Str) : ∃ v, u = rstrip u ++ v ∧ v.all isSpace = true := by
  obtain ⟨v, hv, hall⟩ := exists_lstrip_decomp u.reverse
  refine ⟨v.reverse, ?_, ?_⟩
  · have h2 : u.reverse.reverse = (v ++ lstrip u.reverse).reverse := by rw [← hv]
    rw [List.reverse_reverse, List.reverse_append] at h2
    exact h2
  · rw [List.all_reverse]
    exact hall

lemma length_rstrip_gt (u : Str) (m : Nat) (hm : m < u.length)
    (hns : isSpace (u.getD m ' ') = false) : m < (rstrip u).length := by
  by_contra hge
  push_neg at hge
  obtain ⟨v, hv, hall⟩ := exists_rstrip_decomp u
  have hlen : u.length = (rstrip u).length + v.length := by
    conv_lhs => rw [hv]
    simp
  have hidx : m - (rstrip u).length < v.length := by omega
  have hgd : u.getD m ' ' = v.getD (m - (rstrip u).length) ' ' := by
    conv_lhs => rw [hv]
    exact List.getD_append_right _ _ ' ' m hge
  have hmem := getD_mem_of_lt v (m - (rstrip u).length) ' ' hidx
  have := List.all_eq_true.mp hall _ hmem
  rw [hgd, this] at hns
  simp at hns

lemma leakLits_shape : ∀ l ∈ leakLits, headNotSpace l = true ∧ l ≠ [] ∧
    (∀ c ∈ l, c ≠ '\n') ∧ isSpace (l.getD (l.length - 1) ' ') = false := by decide

lemma leakLits_incomparable : ∀ l1 ∈ leakLits, ∀ l2 ∈ leakLits, l1 <+: l2 → l1 = l2 := by decide

lemma span_bound_and_last (l t : Str) (p : Nat)
    (hh : headNotSpace l = true) (hne : l ≠ [])
    (hlast : isSpace (l.getD (l.length - 1) ' ') = false)
    (h : occursAt l t p = true) :
    p + 1 + wsRunLen (t.drop (p + 1)) + l.length ≤ t.length ∧
    isSpace (t.getD (p + 1 + wsRunLen (t.drop (p + 1)) + l.length - 1) ' ') = false := by
  set q := p + 1 + wsRunLen (t.drop (p + 1)) with hq
  have hpa := List.isPrefixOf_iff_prefix.mp (occursAt_literal l t p hh hne h)
  have hlpos : 0 < l.length := List.length_pos.mpr hne
  have hlen2 : l.length ≤ t.length - q := by
    have hle := hpa.length_le
    simp only [toLowerStr, List.length_map, List.length_drop] at hle
    omega
  have hqlt : q < t.length := by omega
  refine ⟨by omega, ?_⟩
  set m := l.length - 1 with hm
  have hmlt : m < l.length := by omega
  have hgd := prefix_getD l _ m ' ' hpa hmlt
  have hlen3 : m < (t.drop q).length := by
    simp only [List.length_drop]
    omega
  rw [getD_map_lower _ _ hlen3, getD_drop_add] at hgd
  have harith : q + l.length - 1 = q + m := by omega
  rw [harith]
  cases hsp : isSpace (t.getD (q + m) ' ') with
  | false => rfl
  | true =>
    exfalso
    rw [toLower_of_isSpace _ hsp] at hgd
    rw [hgd] at hsp
    rw [hsp] at hlast
    simp at hlast

lemma foldl_cutPattern_leftmost : ∀ (lits : List Str) (t : Str) (n : Nat) (lit : Str) (i : Nat),
    (∀ l ∈ lits, l ∈ leakLits) →
    lit ∈ lits →
    lstrip t = t →
    occursAt lit t i = true →
    (∀ l2 ∈ leakLits, ∀ p, occursAt l2 t p = true → i ≤ p) →
    i + 1 + wsRunLen (t.drop (i + 1)) + lit.length ≤ n →
    List.foldl cutPattern (t.take n) lits = strip (t.take i) := by
  intro lits
  induction lits with
  | nil =>
    intro t n lit i _ hmem
    simp at hmem
  | cons l ls ih =>
    intro t n lit i hsub hmem hfix hocc hmin hspan
    have hlitlk : lit ∈ leakLits := hsub lit hmem
    obtain ⟨hh, hne, hnl, hlast⟩ := leakLits_shape lit hlitlk
    have hllk : l ∈ leakLits := hsub l (List.mem_cons_self _ _)
    obtain ⟨hh2, hne2, hnl2, hlast2⟩ := leakLits_shape l hllk
    by_cases hl : l = lit
    · subst hl
      have htake : occursAt l (t.take n) i = true := occursAt_take l t i n hh hne hocc hspan
      have hnone : ∀ p, p < i → occursAt l (t.take n) p = false := by
        intro p hp
        cases hc : occursAt l (t.take n) p with
        | false => rfl
        | true =>
          exfalso
          have := hmin l hllk p (occursAt_mono l (t.take n) t p (List.take_prefix n t) hc)
          omega
      have hfm : firstMatch l (t.take n) = some i :=
        firstMatch_eq_some_of l (t.take n) i htake hnone
      rw [List.foldl_cons, cutPattern_of_some _ l i hfm]
      have htt : (t.take n).take i = t.take i := by
        rw [List.take_take]
        congr 1
        omega
      rw [htt]
      apply foldl_cutPattern_of_none
      intro l2 hl2
      apply firstMatch_none_of_no_match
      intro j
      cases hc : occursAt l2 (strip (t.take i)) j with
      | false => exact hc
      | true =>
        exfalso
        have hpre : strip (t.take i) <+: t := by
          rw [strip, lstrip_take_of_fixed t i hfix]
          exact (rstrip_pre _).trans (List.take_prefix i t)
        have hjt := occursAt_mono l2 _ t j hpre hc
        have hge := hmin l2 (hsub l2 (List.mem_cons_of_mem _ hl2)) j hjt
        obtain ⟨hjlen, -, -⟩ := occursAt_parts l2 _ j hc
        have hlen1 : (strip (t.take i)).length ≤ i := by
          have h1 : strip (t.take i) <+: t.take i := by
            rw [strip, lstrip_take_of_fixed t i hfix]
            exact rstrip_pre _
          have h2 := h1.length_le
          have h3 : (t.take i).length ≤ i := by
            rw [List.length_take]
            omega
          omega
        omega
    · cases hfm : firstMatch l (t.take n) with
      | none =>
        rw [List.foldl_cons, cutPattern_of_none _ l hfm]
        have hmem2 : lit ∈ ls := by
          rcases List.mem_cons.mp hmem with hx | hx
          · exact absurd hx.symm hl
          · exact hx
        exact ih t n lit i (fun x hx => hsub x (List.mem_cons_of_mem _ hx)) hmem2
          hfix hocc hmin hspan
      | some j =>
        obtain ⟨hj1, -⟩ := firstMatch_some_spec l (t.take n) j hfm
        have hjocc : occursAt l (t.take n) j = true := hj1
        have hjt : occursAt l t j = true :=
          occursAt_mono l _ t j (List.take_prefix n t) hjocc
        have hge : i ≤ j := hmin l hllk j hjt
        have hjne : j ≠ i := by
          intro hji
          subst hji
          rcases occursAt_same_literal l lit t j hh2 hne2 hh hne hjt hocc with hp | hp
          · exact hl (leakLits_incomparable l hllk lit hlitlk hp)
          · exact hl (leakLits_incomparable lit hlitlk l hllk hp).symm
        have hjsp : i + 1 + wsRunLen (t.drop (i + 1)) + lit.length ≤ j := by
          by_contra hlt2
          push_neg at hlt2
          rcases occursAt_apart lit l t i j hh hne hnl hh2 hne2 hocc hjt (by omega) hlt2 with
            hp | hp
          · exact hl (leakLits_incomparable lit hlitlk l hllk hp).symm
          · exact hl (leakLits_incomparable l hllk lit hlitlk hp)
        obtain ⟨hjlen, -, -⟩ := occursAt_parts l (t.take n) j hjocc
        have hjn : j < n := by
          simp only [List.length_take] at hjlen
          omega
        rw [List.foldl_cons, cutPattern_of_some _ l j hfm]
        have htt : (t.take n).take j = t.take j := by
          rw [List.take_take]
          congr 1
          omega
        rw [htt]
        obtain ⟨hsplen, hslast⟩ := span_bound_and_last lit t i hh hne hlast hocc
        have hfixj : lstrip (t.take j) = t.take j := lstrip_take_of_fixed t j hfix
        have hstrip_eq : strip (t.take j) = rstrip (t.take j) := by rw [strip, hfixj]
        have hLge : i + 1 + wsRunLen (t.drop (i + 1)) + lit.length
            ≤ (strip (t.take j)).length := by
          rw [hstrip_eq]
          have hin : i + 1 + wsRunLen (t.drop (i + 1)) + lit.length - 1
              < (t.take j).length := by
            rw [List.length_take]
            omega
          have hns : isSpace ((t.take j).getD
              (i + 1 + wsRunLen (t.drop (i + 1)) + lit.length - 1) ' ') = false := by
            rw [getD_take_of_lt t _ j ' ' (by omega)]
            exact hslast
          have := length_rstrip_gt (t.take j) _ hin hns
          omega
        have hpre2 : strip (t.take j) <+: t := by
          rw [hstrip_eq]
          exact (rstrip_pre _).trans (List.take_prefix j t)
        have hLeq : strip (t.take j) = t.take (strip (t.take j)).length :=
          List.prefix_iff_eq_take.mp hpre2
        rw [hLeq]
        have hmem2 : lit ∈ ls := by
          rcases List.mem_cons.mp hmem with hx | hx
          · exact absurd hx.symm hl
          · exact hx
        exact ih t _ lit i (fun x hx => hsub x (List.mem_cons_of_mem _ hx)) hmem2
          hfix hocc hmin hLge

/-- C5 counterexample: an input containing none of the leak patterns is not
returned unchanged — `_clean_response` strips surrounding whitespace
unconditionally, so " x " comes back as "x". -/
theorem leak_strip_changes_text_without_match :
    hasLeakMatch (" x ".data) = false ∧ clean_response (" x ".data) ≠ " x ".data :=
  ⟨by decide, by decide⟩

/-- C5 amended: leak stripping always trims surrounding whitespace; on the
trimmed text it is otherwise a no-op when no leak pattern matches, and when
patterns match — one or several — the text is cut at the overall first
(leftmost) match start and trimmed: if some pattern's first match is at
position `i` and no pattern matches earlier (every pattern's first match
position is at least `i`; `getD` returns `i` itself for patterns with no
match), the result is the trimmed text up to `i`, trimmed again. -/
theorem leak_strip_trims_and_cuts_at_match (s : Str) :
    (hasLeakMatch (strip s) = false → clean_response s = strip s) ∧
    (∀ lit i, lit ∈ leakLits → firstMatch lit (strip s) = some i →
      (∀ l2 ∈ leakLits, i ≤ (firstMatch l2 (strip s)).getD i) →
      clean_response s = strip ((strip s).take i)) := by
  constructor
  · intro h
    have hnone : ∀ lit ∈ leakLits, firstMatch lit (strip s) = none := by
      intro lit hl
      cases hfm : firstMatch lit (strip s) with
      | none => rfl
      | some i =>
        exfalso
        have ht : hasLeakMatch (strip s) = true := by
          unfold hasLeakMatch
          rw [List.any_eq_true]
          exact ⟨lit, hl, by simp [hfm]⟩
        rw [h] at ht
        simp at ht
    unfold clean_response
    rw [foldl_cutPattern_of_none leakLits (strip s) hnone]
    exact strip_idem s
  · intro lit i hmem hm hmin
    have hocc : occursAt lit (strip s) i = true := (firstMatch_some_spec lit (strip s) i hm).1
    have hminp : ∀ l2 ∈ leakLits, ∀ p, occursAt l2 (strip s) p = true → i ≤ p := by
      intro l2 hl2 p hp
      cases hfm : firstMatch l2 (strip s) with
      | none =>
        have hs := firstMatch_none_spec l2 (strip s) hfm p
        unfold occursAt at hp
        rw [hp] at hs
        simp at hs
      | some j =>
        obtain ⟨-, hj2⟩ := firstMatch_some_spec l2 (strip s) j hfm
        have hjp : j ≤ p := by
          by_contra hc
          push_neg at hc
          have hs := hj2 p hc
          unfold occursAt at hp
          rw [hp] at hs
          simp at hs
        have hij : i ≤ j := by
          have hx := hmin l2 hl2
          rw [hfm] at hx
          simpa using hx
        omega
    obtain ⟨hh, hne, -, hlast⟩ := leakLits_shape lit hmem
    have hspan := (span_bound_and_last lit (strip s) i hh hne hlast hocc).1
    have hfold := foldl_cutPattern_leftmost leakLits (strip s) (strip s).length lit i
      (fun x hx => hx) hmem (lstrip_strip s) hocc hminp hspan
    rw [List.take_length] at hfold
    unfold clean_response
    rw [hfold]
    exact strip_idem _

theorem leak_strip_trims_and_cuts_at_match_witness :
    clean_response (" hello there ".data) = strip (" hello there ".data) ∧
    clean_response ("Hello\nContext: aaa\nQuestion: bbb".data)
      = strip ((strip ("Hello\nContext: aaa\nQuestion: bbb".data)).take 5) :=
  ⟨(leak_strip_trims_and_cuts_at_match (" hello there ".data)).1 (by decide),
   (leak_strip_trims_and_cuts_at_match ("Hello\nContext: aaa\nQuestion: bbb".data)).2
     ("context:".data) 5 (by decide) (by decide) (by decide)⟩
